import Mathlib

/-!
Verification development for the Vulkan memory manager of yuzu
(src/video_core/renderer_vulkan/vk_memory_manager.h).

The repository snapshot contains the header of the component only: the
class declarations of VKMemoryManager, VKMemoryCommitImpl and MemoryMap,
the last with its destructor and Release defined inline.  The allocation
algorithm (VKMemoryManager::Commit, AllocMemory, TryAllocCommit and the
free-interval tracker VKMemoryAllocation) lives in a translation unit
that is not part of the snapshot; those operations are modelled from the
specification, as marked on each definition.  MemoryMap and the shape of
VKMemoryCommitImpl are embedded directly from the header.
-/

namespace VkMem

/-- A physical device memory type: the three property flags the manager
inspects (host-visible, host-coherent, device-local). -/
structure MemoryType where
  hostVisible : Bool
  hostCoherent : Bool
  deviceLocal : Bool
deriving DecidableEq

/-- Modelled from the spec: VKMemoryAllocation (defined outside the header)
is one raw device memory chunk of fixed size and memory type together with
the sorted list of leased, disjoint intervals carved out of it. -/
structure Allocation where
  size : Nat
  memoryType : Nat
  usedRanges : List (Nat × Nat)
deriving DecidableEq

/-- Round v up to the next multiple of a (Common::AlignUp). -/
def alignUp (v a : Nat) : Nat :=
  if a = 0 then v else (v + a - 1) / a * a

/-- The free gaps of an allocation of size sz whose used ranges, sorted by
begin, still lie ahead of the cursor: the gap before each used range and
the final gap after the last one. -/
def gapsFrom (cursor sz : Nat) : List (Nat × Nat) → List (Nat × Nat)
  | [] => [(cursor, sz)]
  | (b, e) :: rest => (cursor, b) :: gapsFrom e sz rest

/-- First-fit scan over a gap list: the first gap that still holds size
bytes after rounding its start up to align wins. -/
def findFit (size align : Nat) : List (Nat × Nat) → Option Nat
  | [] => none
  | (gb, ge) :: rest =>
    if alignUp gb align + size ≤ ge then some (alignUp gb align) else findFit size align rest

/-- Insert an interval into a begin-sorted interval list, keeping order. -/
def insertRange (iv : Nat × Nat) : List (Nat × Nat) → List (Nat × Nat)
  | [] => [iv]
  | r :: rs => if iv.1 ≤ r.1 then iv :: r :: rs else r :: insertRange iv rs

/-- Modelled from the spec: VKMemoryAllocation::Commit / TryCommit (not in
the header).  Scans the gaps between consecutive used ranges in increasing
offset order and carves the commit from the first fitting gap. -/
def tryCarve (a : Allocation) (size align : Nat) : Option (Nat × Nat) × Allocation :=
  match findFit size align (gapsFrom 0 a.size a.usedRanges) with
  | some ab => (some (ab, ab + size), ⟨a.size, a.memoryType, insertRange (ab, ab + size) a.usedRanges⟩)
  | none => (none, a)

/-- Remove the first occurrence of an interval from an interval list. -/
def removeRange (iv : Nat × Nat) : List (Nat × Nat) → List (Nat × Nat)
  | [] => []
  | r :: rs => if r = iv then rs else r :: removeRange iv rs

/-- Modelled from the spec: VKMemoryAllocation::Free, reached from the
Commit destructor (not in the header): the freed interval simply leaves
used_ranges, free space being the complement of the used list. -/
def releaseRange (a : Allocation) (iv : Nat × Nat) : Allocation :=
  ⟨a.size, a.memoryType, removeRange iv a.usedRanges⟩

/-- Well-formedness of a used-range list: ranges are sorted, pairwise
disjoint, nonempty and contained in [cursor, sz). -/
def chainWF (cursor sz : Nat) : List (Nat × Nat) → Bool
  | [] => true
  | (b, e) :: rest =>
    decide (cursor ≤ b) && decide (b < e) && decide (e ≤ sz) && chainWF e sz rest

/-- One operation on a single allocation: carve a commit or free one. -/
inductive AllocOp where
  | carve (size align : Nat)
  | free (iv : Nat × Nat)
deriving DecidableEq

/-- Apply one operation to an allocation. -/
def applyOp (a : Allocation) : AllocOp → Allocation
  | .carve s al => (tryCarve a s al).2
  | .free iv => releaseRange a iv

/-- Run a sequence of operations on a fresh allocation of chunk size sz. -/
def runOps (sz : Nat) (ops : List AllocOp) : Allocation :=
  ops.foldl applyOp ⟨sz, 0, []⟩

/-- Carve requests with a positive size (a Vulkan resource never reports a
zero memory requirement). -/
def opSizePos : AllocOp → Bool
  | .carve s _ => decide (0 < s)
  | .free _ => true

/-- Bit i of the type mask reported by the driver for a resource. -/
def maskBit (mask i : Nat) : Bool := Nat.testBit mask i

/-- Indices of the memory types that satisfy the type mask and a property
predicate, in driver-reported (increasing index) order. -/
def typesWith (props : List MemoryType) (mask : Nat) (p : MemoryType → Bool) : List Nat :=
  (List.range props.length).filter fun i =>
    maskBit mask i && (match props.get? i with | some t => p t | none => false)

/-- Host-visible and host-coherent together, required when host_visible. -/
def hostFlags (t : MemoryType) : Bool := t.hostVisible && t.hostCoherent

/-- Modelled from the spec: the candidate memory types for a request
(VKMemoryManager::Commit and AllocMemory are not in the header).  With
host_visible the candidates are the mask-compatible types that are both
host-visible and host-coherent; otherwise device-local mask-compatible
types are preferred, falling back to any mask-compatible type when no
device-local candidate exists. -/
def candidateTypes (props : List MemoryType) (mask : Nat) (hv : Bool) : List Nat :=
  match hv with
  | true => typesWith props mask hostFlags
  | false =>
    match typesWith props mask (fun t => t.deviceLocal) with
    | [] => typesWith props mask (fun _ => true)
    | t0 :: ts => t0 :: ts

/-- A returned commit: the index of its owning allocation in the manager's
list and the carved interval. -/
structure CommitInfo where
  allocIdx : Nat
  interval : Nat × Nat
deriving DecidableEq

/-- Modelled from the spec: try to carve the request from the existing
allocations of one memory type, in creation order. -/
def tryCarveList (t size align : Nat) : List Allocation → Option (Nat × (Nat × Nat) × List Allocation)
  | [] => none
  | a :: rest =>
    if a.memoryType = t then
      match tryCarve a size align with
      | (some iv, a2) => some (0, iv, a2 :: rest)
      | (none, _) =>
        match tryCarveList t size align rest with
        | some (i, iv, rest2) => some (i + 1, iv, a :: rest2)
        | none => none
    else
      match tryCarveList t size align rest with
      | some (i, iv, rest2) => some (i + 1, iv, a :: rest2)
      | none => none

/-- Modelled from the spec: VKMemoryManager::TryAllocCommit (declared in
the header, defined elsewhere): try each candidate type in priority order
and carve from an existing allocation of that type. -/
def tryAllocCommit (allocs : List Allocation) (size align : Nat) : List Nat → Option (Nat × (Nat × Nat) × List Allocation)
  | [] => none
  | t :: ts =>
    match tryCarveList t size align allocs with
    | some r => some r
    | none => tryAllocCommit allocs size align ts

/-- Modelled from the spec: VKMemoryManager::Commit(requirements,
host_visible) together with AllocMemory (neither is in the header).
canAlloc is the driver: whether a chunk can still be created on a memory
type.  On a carve miss a new allocation is created on the first candidate
type the driver accepts, sized to the larger of the request size and the
fixed minimum chunk size minChunk, and the commit is carved from it;
when every candidate fails the request fails with no state change. -/
def commitReq (minChunk : Nat) (canAlloc : Nat → Bool) (props : List MemoryType)
    (allocs : List Allocation) (size align mask : Nat) (hv : Bool) :
    Option CommitInfo × List Allocation :=
  let cands := candidateTypes props mask hv
  match tryAllocCommit allocs size align cands with
  | some (i, iv, allocs2) => (some ⟨i, iv⟩, allocs2)
  | none =>
    match cands.find? canAlloc with
    | some t =>
      match tryCarve ⟨max size minChunk, t, []⟩ size align with
      | (some iv, a2) => (some ⟨allocs.length, iv⟩, allocs ++ [a2])
      | (none, _) => (none, allocs)
    | none => (none, allocs)

/-- Release a commit's interval in the allocation at the given index. -/
def releaseAt (iv : Nat × Nat) : List Allocation → Nat → List Allocation
  | [], _ => []
  | a :: rest, 0 => releaseRange a iv :: rest
  | a :: rest, Nat.succ n => a :: releaseAt iv rest n

/-- The two driver-level failures visible through the manager. -/
inductive CommitError where
  | outOfDeviceMemory
  | bindFailure
deriving DecidableEq

/-- Modelled from the spec: the buffer/image convenience overloads of
VKMemoryManager::Commit (declared in the header, defined elsewhere):
commit, then bind the resource; a bind failure releases the carved
interval back to its allocation before the driver error is surfaced. -/
def commitBound (bindOk : Bool) (minChunk : Nat) (canAlloc : Nat → Bool) (props : List MemoryType)
    (allocs : List Allocation) (size align mask : Nat) (hv : Bool) :
    Except CommitError CommitInfo × List Allocation :=
  match commitReq minChunk canAlloc props allocs size align mask hv with
  | (none, allocs2) => (Except.error CommitError.outOfDeviceMemory, allocs2)
  | (some ci, allocs2) =>
    match bindOk with
    | true => (Except.ok ci, allocs2)
    | false => (Except.error CommitError.bindFailure, releaseAt ci.interval allocs2 ci.allocIdx)

/-- MemoryMap, embedded from the header: a non-owning reference to the
mapped commit (none models nullptr), the mapped span base address, and an
instrumentation counter of how often commit->Unmap() has run. -/
structure MemoryMap where
  commit : Option Nat
  span : Nat
  unmaps : Nat
deriving DecidableEq

/-- The MemoryMap destructor from the header: calls commit->Unmap() only
when the commit reference is non-null.  Returns the total number of Unmap
invocations over the object's lifetime. -/
def MemoryMap.destroy (m : MemoryMap) : Nat :=
  match m.commit with
  | some _ => m.unmaps + 1
  | none => m.unmaps

/-- MemoryMap::Release from the header: calls commit->Unmap() with no null
guard, then nulls the commit reference.  A null commit means the call
dereferences nullptr, modelled as none. -/
def MemoryMap.release (m : MemoryMap) : Option MemoryMap :=
  match m.commit with
  | some _ => some ⟨none, m.span, m.unmaps + 1⟩
  | none => none

/-- VKMemoryCommitImpl as declared in the header: the commit's identity
and its interval.  The class has no mapping-state field and Map is a
const member. -/
structure VKMemoryCommitImpl where
  id : Nat
  interval : Nat × Nat
deriving DecidableEq

/-- VKMemoryCommitImpl::Map from the header signature: a const member
returning a MemoryMap whose span starts at the chunk's mapped base plus
the commit's begin plus the offset.  Being const on a class with no
mapping-state field, it cannot record or reject a second live map; it is
a pure function of the commit. -/
def VKMemoryCommitImpl.mapRegion (c : VKMemoryCommitImpl) (base offset : Nat) : MemoryMap :=
  ⟨some c.id, base + c.interval.1 + offset, 0⟩

end VkMem

namespace VkMem

theorem le_alignUp (v a : Nat) : v ≤ alignUp v a := by
  unfold alignUp
  split
  · exact Nat.le_refl v
  · rename_i h
    have ha : 0 < a := Nat.pos_of_ne_zero h
    have h1 : a * ((v + a - 1) / a) + (v + a - 1) % a = v + a - 1 := Nat.div_add_mod _ _
    have h2 : (v + a - 1) % a < a := Nat.mod_lt _ ha
    have h3 : (v + a - 1) / a * a = a * ((v + a - 1) / a) := Nat.mul_comm _ _
    omega

theorem alignUp_mod (v a : Nat) (ha : 0 < a) : alignUp v a % a = 0 := by
  unfold alignUp
  rw [if_neg (Nat.pos_iff_ne_zero.mp ha)]
  exact Nat.mul_mod_left _ _

theorem alignUp_le (v p a : Nat) (ha : 0 < a) (hv : v ≤ p) (hp : p % a = 0) :
    alignUp v a ≤ p := by
  obtain ⟨k, rfl⟩ : a ∣ p := Nat.dvd_of_mod_eq_zero hp
  unfold alignUp
  rw [if_neg (Nat.pos_iff_ne_zero.mp ha)]
  have h1 : (v + a - 1) / a < k + 1 := by
    rw [Nat.div_lt_iff_lt_mul ha]
    have h2 : (k + 1) * a = a * k + a := by ring
    omega
  have h2 : (v + a - 1) / a ≤ k := Nat.lt_succ_iff.mp h1
  calc (v + a - 1) / a * a ≤ k * a := Nat.mul_le_mul_right a h2
    _ = a * k := Nat.mul_comm _ _

theorem alignUp_zero_left (a : Nat) : alignUp 0 a = 0 := by
  unfold alignUp
  split
  · rfl
  · rename_i h
    have ha : 0 < a := Nat.pos_of_ne_zero h
    have h1 : (0 + a - 1) / a = 0 := Nat.div_eq_of_lt (by omega)
    rw [h1]
    exact Nat.zero_mul a

theorem chainWF_cons (c sz b e : Nat) (rest : List (Nat × Nat)) :
    chainWF c sz ((b, e) :: rest) = true ↔
      c ≤ b ∧ b < e ∧ e ≤ sz ∧ chainWF e sz rest = true := by
  simp [chainWF, Bool.and_eq_true, decide_eq_true_iff, and_assoc]

theorem chainWF_mono (c c2 sz : Nat) (l : List (Nat × Nat)) (h : c ≤ c2)
    (hwf : chainWF c2 sz l = true) : chainWF c sz l = true := by
  cases l with
  | nil => simp [chainWF]
  | cons r rest =>
    obtain ⟨b, e⟩ := r
    rw [chainWF_cons] at hwf ⊢
    exact ⟨Nat.le_trans h hwf.1, hwf.2⟩

theorem chainWF_mem (c sz : Nat) (l : List (Nat × Nat)) (r : Nat × Nat)
    (hwf : chainWF c sz l = true) (hr : r ∈ l) : c ≤ r.1 ∧ r.1 < r.2 ∧ r.2 ≤ sz := by
  induction l generalizing c with
  | nil => cases hr
  | cons x rest ih =>
    obtain ⟨b, e⟩ := x
    rw [chainWF_cons] at hwf
    rcases List.mem_cons.mp hr with h | h
    · subst h
      exact ⟨hwf.1, hwf.2.1, hwf.2.2.1⟩
    · have h1 := ih e hwf.2.2.2 h
      exact ⟨by omega, h1.2⟩

theorem chainWF_disjoint (c sz : Nat) (l : List (Nat × Nat)) (r s : Nat × Nat)
    (hwf : chainWF c sz l = true) (hr : r ∈ l) (hs : s ∈ l) (hne : r ≠ s) :
    r.2 ≤ s.1 ∨ s.2 ≤ r.1 := by
  induction l generalizing c with
  | nil => cases hr
  | cons x rest ih =>
    obtain ⟨b, e⟩ := x
    rw [chainWF_cons] at hwf
    rcases List.mem_cons.mp hr with h1 | h1 <;> rcases List.mem_cons.mp hs with h2 | h2
    · exact absurd (h1.trans h2.symm) hne
    · subst h1
      left
      exact (chainWF_mem e sz rest s hwf.2.2.2 h2).1
    · subst h2
      right
      exact (chainWF_mem e sz rest r hwf.2.2.2 h1).1
    · exact ih e hwf.2.2.2 h1 h2

theorem chainWF_nodup (c sz : Nat) (l : List (Nat × Nat))
    (hwf : chainWF c sz l = true) : l.Nodup := by
  induction l generalizing c with
  | nil => exact List.nodup_nil
  | cons x rest ih =>
    obtain ⟨b, e⟩ := x
    rw [chainWF_cons] at hwf
    rw [List.nodup_cons]
    refine ⟨?_, ih e hwf.2.2.2⟩
    intro hmem
    have h1 : e ≤ b := (chainWF_mem e sz rest (b, e) hwf.2.2.2 hmem).1
    have h2 : b < e := hwf.2.1
    omega

theorem chainWF_removeRange (c sz : Nat) (iv : Nat × Nat) (l : List (Nat × Nat))
    (hwf : chainWF c sz l = true) : chainWF c sz (removeRange iv l) = true := by
  induction l generalizing c with
  | nil => simpa [removeRange] using hwf
  | cons x rest ih =>
    obtain ⟨b, e⟩ := x
    rw [chainWF_cons] at hwf
    obtain ⟨h1, h2, h3, h4⟩ := hwf
    unfold removeRange
    split
    · exact chainWF_mono c e sz rest (by omega) h4
    · rw [chainWF_cons]
      exact ⟨h1, h2, h3, ih e h4⟩

theorem removeRange_insertRange (iv : Nat × Nat) (l : List (Nat × Nat)) :
    removeRange iv (insertRange iv l) = l := by
  induction l with
  | nil => simp [insertRange, removeRange]
  | cons x rest ih =>
    unfold insertRange
    split
    · simp [removeRange]
    · rename_i h
      have hne : x ≠ iv := by
        intro heq
        refine h ?_
        rw [heq]
      simp [removeRange, hne, ih]

theorem mem_removeRange (iv r : Nat × Nat) (l : List (Nat × Nat))
    (h : r ∈ removeRange iv l) : r ∈ l := by
  induction l with
  | nil => simp [removeRange] at h
  | cons x rest ih =>
    unfold removeRange at h
    split at h
    · exact List.mem_cons_of_mem _ h
    · rcases List.mem_cons.mp h with h1 | h1
      · exact h1 ▸ List.mem_cons_self _ _
      · exact List.mem_cons_of_mem _ (ih h1)

theorem not_mem_removeRange (iv : Nat × Nat) (l : List (Nat × Nat)) (hnd : l.Nodup) :
    iv ∉ removeRange iv l := by
  induction l with
  | nil => simp [removeRange]
  | cons x rest ih =>
    rw [List.nodup_cons] at hnd
    unfold removeRange
    split
    · rename_i heq
      exact heq ▸ hnd.1
    · rename_i hne
      intro hmem
      rcases List.mem_cons.mp hmem with h | h
      · exact hne h.symm
      · exact ih hnd.2 h

end VkMem

namespace VkMem

theorem findFit_ge (size align c sz : Nat) (l : List (Nat × Nat)) (ab : Nat)
    (hwf : chainWF c sz l = true)
    (h : findFit size align (gapsFrom c sz l) = some ab) : c ≤ ab := by
  induction l generalizing c with
  | nil =>
    simp only [gapsFrom, findFit] at h
    split at h
    · exact Option.some.inj h ▸ le_alignUp c align
    · cases h
  | cons x rest ih =>
    obtain ⟨b, e⟩ := x
    rw [chainWF_cons] at hwf
    simp only [gapsFrom, findFit] at h
    split at h
    · exact Option.some.inj h ▸ le_alignUp c align
    · have h1 := ih e hwf.2.2.2 h
      omega

theorem chainWF_insert (size align c sz : Nat) (l : List (Nat × Nat)) (ab : Nat)
    (hwf : chainWF c sz l = true) (hf : findFit size align (gapsFrom c sz l) = some ab)
    (hs : 0 < size) : chainWF c sz (insertRange (ab, ab + size) l) = true := by
  induction l generalizing c with
  | nil =>
    simp only [gapsFrom, findFit] at hf
    split at hf
    · rename_i hcond
      have hab := Option.some.inj hf
      subst hab
      simp only [insertRange]
      rw [chainWF_cons]
      exact ⟨le_alignUp c align, by omega, hcond, by simp [chainWF]⟩
    · cases hf
  | cons x rest ih =>
    obtain ⟨b, e⟩ := x
    rw [chainWF_cons] at hwf
    obtain ⟨h1, h2, h3, h4⟩ := hwf
    simp only [gapsFrom, findFit] at hf
    split at hf
    · rename_i hcond
      have hab := Option.some.inj hf
      subst hab
      simp only [insertRange]
      rw [if_pos (by omega : alignUp c align ≤ b)]
      rw [chainWF_cons, chainWF_cons]
      refine ⟨le_alignUp c align, by omega, by omega, by omega, h2, h3, h4⟩
    · rename_i hcond
      have hge : e ≤ ab := findFit_ge size align e sz rest ab h4 hf
      simp only [insertRange]
      rw [if_neg (by simp only [not_le]; omega : ¬ ab ≤ b)]
      rw [chainWF_cons]
      exact ⟨h1, h2, h3, ih e h4 hf⟩

theorem findFit_aligned (size align : Nat) (gs : List (Nat × Nat)) (ab : Nat)
    (ha : 0 < align) (h : findFit size align gs = some ab) : ab % align = 0 := by
  induction gs with
  | nil => cases h
  | cons g rest ih =>
    obtain ⟨gb, ge⟩ := g
    simp only [findFit] at h
    split at h
    · exact Option.some.inj h ▸ alignUp_mod gb align ha
    · exact ih h

theorem findFit_min (size align c sz p : Nat) (l : List (Nat × Nat))
    (hwf : chainWF c sz l = true) (hc : c ≤ p) (ha : 0 < align) (hp : p % align = 0)
    (hsz : p + size ≤ sz) (hdis : ∀ r ∈ l, p + size ≤ r.1 ∨ r.2 ≤ p) :
    ∃ ab, findFit size align (gapsFrom c sz l) = some ab ∧ ab ≤ p := by
  induction l generalizing c with
  | nil =>
    have hle := alignUp_le c p align ha hc hp
    refine ⟨alignUp c align, ?_, hle⟩
    simp only [gapsFrom, findFit]
    rw [if_pos (by omega)]
  | cons x rest ih =>
    obtain ⟨b, e⟩ := x
    rw [chainWF_cons] at hwf
    obtain ⟨h1, h2, h3, h4⟩ := hwf
    have hdx := hdis (b, e) (List.mem_cons_self _ _)
    have hdx2 : p + size ≤ b ∨ e ≤ p := hdx
    simp only [gapsFrom, findFit]
    rcases hdx2 with hL | hR
    · have hle := alignUp_le c p align ha hc hp
      rw [if_pos (by omega)]
      exact ⟨alignUp c align, rfl, hle⟩
    · by_cases hfit : alignUp c align + size ≤ b
      · rw [if_pos hfit]
        refine ⟨alignUp c align, rfl, by omega⟩
      · rw [if_neg hfit]
        exact ih e h4 hR (fun r hr => hdis r (List.mem_cons_of_mem _ hr))

theorem tryCarve_release (a : Allocation) (size align : Nat) (iv : Nat × Nat) (a2 : Allocation)
    (h : tryCarve a size align = (some iv, a2)) : releaseRange a2 iv = a := by
  obtain ⟨sz, t, l⟩ := a
  simp only [tryCarve] at h
  split at h
  · rename_i ab hf
    simp only [Prod.mk.injEq, Option.some.injEq] at h
    obtain ⟨hiv, ha2⟩ := h
    subst hiv
    subst ha2
    simp only [releaseRange]
    rw [removeRange_insertRange]
  · simp at h

theorem tryCarve_memoryType (a : Allocation) (size align : Nat) (iv : Nat × Nat) (a2 : Allocation)
    (h : tryCarve a size align = (some iv, a2)) :
    a2.memoryType = a.memoryType ∧ a2.size = a.size := by
  have h1 := tryCarve_release a size align iv a2 h
  have h2 : (releaseRange a2 iv).memoryType = a2.memoryType := rfl
  have h3 : (releaseRange a2 iv).size = a2.size := rfl
  constructor
  · rw [← h2, h1]
  · rw [← h3, h1]

end VkMem

namespace VkMem

theorem tryCarveList_spec (t size align : Nat) (allocs : List Allocation) (i : Nat)
    (iv : Nat × Nat) (allocs2 : List Allocation)
    (h : tryCarveList t size align allocs = some (i, iv, allocs2)) :
    releaseAt iv allocs2 i = allocs ∧
      ∃ a2, allocs2.get? i = some a2 ∧ a2.memoryType = t := by
  induction allocs generalizing i allocs2 with
  | nil => cases h
  | cons a rest ih =>
    simp only [tryCarveList] at h
    by_cases hty : a.memoryType = t
    · rw [if_pos hty] at h
      split at h
      · rename_i iv0 a2 hcarve
        simp only [Option.some.injEq, Prod.mk.injEq] at h
        obtain ⟨h1, h2, h3⟩ := h
        subst h1
        subst h2
        subst h3
        refine ⟨?_, a2, rfl, ?_⟩
        · simp only [releaseAt]
          rw [tryCarve_release a size align _ a2 hcarve]
        · rw [(tryCarve_memoryType a size align _ a2 hcarve).1]
          exact hty
      · rename_i hcarve
        split at h
        · rename_i i0 iv0 rest2 hrec
          simp only [Option.some.injEq, Prod.mk.injEq] at h
          obtain ⟨h1, h2, h3⟩ := h
          subst h1
          subst h2
          subst h3
          obtain ⟨hrel, a2, hget, hmt⟩ := ih i0 rest2 hrec
          refine ⟨?_, a2, ?_, hmt⟩
          · simp only [releaseAt, hrel]
          · simpa using hget
        · cases h
    · rw [if_neg hty] at h
      split at h
      · rename_i i0 iv0 rest2 hrec
        simp only [Option.some.injEq, Prod.mk.injEq] at h
        obtain ⟨h1, h2, h3⟩ := h
        subst h1
        subst h2
        subst h3
        obtain ⟨hrel, a2, hget, hmt⟩ := ih i0 rest2 hrec
        refine ⟨?_, a2, ?_, hmt⟩
        · simp only [releaseAt, hrel]
        · simpa using hget
      · cases h

theorem tryAllocCommit_spec (size align : Nat) (allocs : List Allocation) (cands : List Nat)
    (i : Nat) (iv : Nat × Nat) (allocs2 : List Allocation)
    (h : tryAllocCommit allocs size align cands = some (i, iv, allocs2)) :
    releaseAt iv allocs2 i = allocs ∧
      ∃ t, t ∈ cands ∧ ∃ a2, allocs2.get? i = some a2 ∧ a2.memoryType = t := by
  induction cands with
  | nil => cases h
  | cons t ts ih =>
    simp only [tryAllocCommit] at h
    split at h
    · rename_i r hr
      have h1 := Option.some.inj h
      subst h1
      obtain ⟨hrel, a2, hget, hmt⟩ := tryCarveList_spec t size align allocs i iv allocs2 hr
      exact ⟨hrel, t, List.mem_cons_self _ _, a2, hget, hmt⟩
    · obtain ⟨hrel, t2, ht2, hrest⟩ := ih h
      exact ⟨hrel, t2, List.mem_cons_of_mem _ ht2, hrest⟩

theorem typesWith_mem (props : List MemoryType) (mask : Nat) (p : MemoryType → Bool) (i : Nat)
    (h : i ∈ typesWith props mask p) :
    ∃ mt, props.get? i = some mt ∧ p mt = true := by
  simp only [typesWith, List.mem_filter] at h
  obtain ⟨-, h2⟩ := h
  rw [Bool.and_eq_true] at h2
  obtain ⟨-, h3⟩ := h2
  split at h3
  · rename_i mt hmt
    exact ⟨mt, hmt, h3⟩
  · cases h3

theorem candidateTypes_true_mem (props : List MemoryType) (mask : Nat) (t : Nat)
    (h : t ∈ candidateTypes props mask true) :
    ∃ mt, props.get? t = some mt ∧ mt.hostVisible = true ∧ mt.hostCoherent = true := by
  simp only [candidateTypes] at h
  obtain ⟨mt, h1, h2⟩ := typesWith_mem props mask hostFlags t h
  rw [hostFlags, Bool.and_eq_true] at h2
  exact ⟨mt, h1, h2⟩

theorem candidateTypes_false_dl (props : List MemoryType) (mask : Nat) (t : Nat)
    (h : t ∈ candidateTypes props mask false)
    (hne : typesWith props mask (fun mt => mt.deviceLocal) ≠ []) :
    ∃ mt, props.get? t = some mt ∧ mt.deviceLocal = true := by
  simp only [candidateTypes] at h
  split at h
  · rename_i heq
    exact absurd heq hne
  · rename_i t0 ts heq
    rw [← heq] at h
    exact typesWith_mem props mask (fun mt => mt.deviceLocal) t h

theorem get_opt_append_length (l : List Allocation) (a : Allocation) :
    (l ++ [a]).get? l.length = some a := by
  induction l with
  | nil => rfl
  | cons x rest ih =>
    simp only [List.cons_append, List.length_cons, List.get?_cons_succ]
    exact ih

theorem releaseAt_append (iv : Nat × Nat) (l : List Allocation) (a : Allocation) :
    releaseAt iv (l ++ [a]) l.length = l ++ [releaseRange a iv] := by
  induction l with
  | nil => rfl
  | cons x rest ih =>
    simp only [List.cons_append, List.length_cons, releaseAt, List.append_eq, ih]

theorem tryCarve_fresh (size minChunk t align : Nat) :
    tryCarve ⟨max size minChunk, t, []⟩ size align =
      (some (0, size), ⟨max size minChunk, t, [(0, size)]⟩) := by
  have hmax := Nat.le_max_left size minChunk
  simp only [tryCarve, gapsFrom, findFit, alignUp_zero_left, Nat.zero_add]
  rw [if_pos hmax]
  simp [insertRange]

theorem commitReq_some_type (minChunk : Nat) (canAlloc : Nat → Bool) (props : List MemoryType)
    (allocs : List Allocation) (size align mask : Nat) (hv : Bool) (ci : CommitInfo)
    (allocs2 : List Allocation)
    (h : commitReq minChunk canAlloc props allocs size align mask hv = (some ci, allocs2)) :
    ∃ t, t ∈ candidateTypes props mask hv ∧
      ∃ a2, allocs2.get? ci.allocIdx = some a2 ∧ a2.memoryType = t := by
  simp only [commitReq] at h
  split at h
  · rename_i i iv l2 hta
    simp only [Prod.mk.injEq, Option.some.injEq] at h
    obtain ⟨h1, h2⟩ := h
    subst h1
    subst h2
    obtain ⟨-, t, ht, hrest⟩ := tryAllocCommit_spec size align allocs _ i iv l2 hta
    exact ⟨t, ht, hrest⟩
  · rename_i hta
    split at h
    · rename_i t hft
      split at h
      · rename_i iv a2 hcarve
        simp only [Prod.mk.injEq, Option.some.injEq] at h
        obtain ⟨h1, h2⟩ := h
        subst h1
        subst h2
        refine ⟨t, List.mem_of_find?_eq_some hft, a2, get_opt_append_length allocs a2, ?_⟩
        rw [(tryCarve_memoryType _ size align iv a2 hcarve).1]
      · simp at h
    · simp at h

end VkMem

namespace VkMem

theorem applyOp_wf (a : Allocation) (op : AllocOp)
    (hwf : chainWF 0 a.size a.usedRanges = true) (hop : opSizePos op = true) :
    chainWF 0 (applyOp a op).size (applyOp a op).usedRanges = true := by
  cases op with
  | carve s al =>
    have hs : 0 < s := by simpa [opSizePos] using hop
    simp only [applyOp]
    rcases hf : findFit s al (gapsFrom 0 a.size a.usedRanges) with _ | ab
    · simp only [tryCarve, hf]
      exact hwf
    · simp only [tryCarve, hf]
      exact chainWF_insert s al 0 a.size a.usedRanges ab hwf hf hs
  | free iv =>
    simp only [applyOp, releaseRange]
    exact chainWF_removeRange 0 a.size iv a.usedRanges hwf

theorem runOps_wf_aux (ops : List AllocOp) (a : Allocation)
    (hwf : chainWF 0 a.size a.usedRanges = true)
    (h : ∀ op ∈ ops, opSizePos op = true) :
    chainWF 0 (ops.foldl applyOp a).size (ops.foldl applyOp a).usedRanges = true := by
  induction ops generalizing a with
  | nil => exact hwf
  | cons op rest ih =>
    simp only [List.foldl_cons]
    exact ih (applyOp a op) (applyOp_wf a op hwf (h op (List.mem_cons_self _ _)))
      (fun o ho => h o (List.mem_cons_of_mem _ ho))

/-- C1: for every Allocation, at every state reachable by a sequence of
carve and free operations (carves of positive size), the intervals of all
live commits in used_ranges are pairwise disjoint and every interval
[begin, end) satisfies begin < end ≤ the allocation's chunk size. -/
theorem c1_commit_intervals_disjoint (sz : Nat) (ops : List AllocOp)
    (h : ∀ op ∈ ops, opSizePos op = true) :
    (∀ r ∈ (runOps sz ops).usedRanges, r.1 < r.2 ∧ r.2 ≤ (runOps sz ops).size) ∧
    (∀ r s, r ∈ (runOps sz ops).usedRanges → s ∈ (runOps sz ops).usedRanges → r ≠ s →
      r.2 ≤ s.1 ∨ s.2 ≤ r.1) := by
  have hwf : chainWF 0 (runOps sz ops).size (runOps sz ops).usedRanges = true :=
    runOps_wf_aux ops ⟨sz, 0, []⟩ (by simp [chainWF]) h
  constructor
  · intro r hr
    have h1 := chainWF_mem 0 _ _ r hwf hr
    exact ⟨h1.2.1, h1.2.2⟩
  · intro r s hr hs hne
    exact chainWF_disjoint 0 _ _ r s hwf hr hs hne

theorem c1_commit_intervals_disjoint_witness :
    (100, 300).1 < (100, 300).2 ∧
      (100, 300).2 ≤ (runOps 1024 [AllocOp.carve 100 1, AllocOp.carve 200 1,
        AllocOp.free (0, 100), AllocOp.carve 50 1]).size :=
  (c1_commit_intervals_disjoint 1024
      [AllocOp.carve 100 1, AllocOp.carve 200 1, AllocOp.free (0, 100), AllocOp.carve 50 1]
      (by decide)).1 (100, 300) (by decide)

/-- C2: a carve request (size, alignment) is placed by a first-fit scan of
the gaps between used ranges in increasing offset order: when the carve
succeeds, its begin is a multiple of the alignment, its end is begin + size,
and its begin is the least aligned position whose interval fits in the free
space; and whenever some aligned position fits, the carve succeeds. -/
theorem c2_first_fit_alignment (a : Allocation) (size align : Nat)
    (hwf : chainWF 0 a.size a.usedRanges = true) (ha : 0 < align) :
    (∀ b e a2, tryCarve a size align = (some (b, e), a2) →
      b % align = 0 ∧ e = b + size ∧
        ∀ p, p % align = 0 → p + size ≤ a.size →
          (∀ r ∈ a.usedRanges, p + size ≤ r.1 ∨ r.2 ≤ p) → b ≤ p) ∧
    (∀ p, p % align = 0 → p + size ≤ a.size →
      (∀ r ∈ a.usedRanges, p + size ≤ r.1 ∨ r.2 ≤ p) →
      ((tryCarve a size align).1).isSome = true) := by
  constructor
  · intro b e a2 h
    rcases hf : findFit size align (gapsFrom 0 a.size a.usedRanges) with _ | ab
    · simp only [tryCarve, hf] at h
      simp at h
    · simp only [tryCarve, hf] at h
      simp only [Prod.mk.injEq, Option.some.injEq] at h
      obtain ⟨⟨hb, he⟩, -⟩ := h
      subst hb
      refine ⟨findFit_aligned size align _ _ ha hf, by omega, ?_⟩
      intro p hp hpsz hdis
      obtain ⟨ab2, hf2, hle⟩ :=
        findFit_min size align 0 a.size p a.usedRanges hwf (Nat.zero_le p) ha hp hpsz hdis
      rw [hf] at hf2
      have h1 := Option.some.inj hf2
      omega
  · intro p hp hpsz hdis
    obtain ⟨ab2, hf2, -⟩ :=
      findFit_min size align 0 a.size p a.usedRanges hwf (Nat.zero_le p) ha hp hpsz hdis
    simp [tryCarve, hf2]

theorem c2_first_fit_alignment_witness :
    128 % 128 = 0 ∧ 192 = 128 + 64 ∧ (128 : Nat) ≤ 128 := by
  have h := (c2_first_fit_alignment ⟨1024, 0, [(0, 100), (256, 512)]⟩ 64 128
    (by decide) (by decide)).1 128 192 ⟨1024, 0, [(0, 100), (128, 192), (256, 512)]⟩ (by decide)
  exact ⟨h.1, h.2.1, h.2.2 128 (by decide) (by decide) (by decide)⟩

end VkMem

namespace VkMem

/-- C3: a Commit request with host_visible = true only ever lands on an
allocation whose memory type is host-visible and host-coherent; with
host_visible = false, whenever some device-local type satisfies the type
mask, the chosen allocation's type is device-local (a non-device-local
type is used only when no device-local candidate exists). -/
theorem c3_type_selection :
    (∀ (minChunk : Nat) (canAlloc : Nat → Bool) (props : List MemoryType)
        (allocs : List Allocation) (size align mask : Nat) (ci : CommitInfo)
        (allocs2 : List Allocation),
      commitReq minChunk canAlloc props allocs size align mask true = (some ci, allocs2) →
      ∃ a2 mt, allocs2.get? ci.allocIdx = some a2 ∧ props.get? a2.memoryType = some mt ∧
        mt.hostVisible = true ∧ mt.hostCoherent = true) ∧
    (∀ (minChunk : Nat) (canAlloc : Nat → Bool) (props : List MemoryType)
        (allocs : List Allocation) (size align mask : Nat) (ci : CommitInfo)
        (allocs2 : List Allocation),
      commitReq minChunk canAlloc props allocs size align mask false = (some ci, allocs2) →
      typesWith props mask (fun mt => mt.deviceLocal) ≠ [] →
      ∃ a2 mt, allocs2.get? ci.allocIdx = some a2 ∧ props.get? a2.memoryType = some mt ∧
        mt.deviceLocal = true) := by
  constructor
  · intro minChunk canAlloc props allocs size align mask ci allocs2 h
    obtain ⟨t, ht, a2, hget, hty⟩ :=
      commitReq_some_type minChunk canAlloc props allocs size align mask true ci allocs2 h
    obtain ⟨mt, hmt, hvv, hcc⟩ := candidateTypes_true_mem props mask t ht
    subst hty
    exact ⟨a2, mt, hget, hmt, hvv, hcc⟩
  · intro minChunk canAlloc props allocs size align mask ci allocs2 h hne
    obtain ⟨t, ht, a2, hget, hty⟩ :=
      commitReq_some_type minChunk canAlloc props allocs size align mask false ci allocs2 h
    obtain ⟨mt, hmt, hdl⟩ := candidateTypes_false_dl props mask t ht hne
    subst hty
    exact ⟨a2, mt, hget, hmt, hdl⟩

theorem c3_type_selection_witness :
    (∃ a2 mt, ([(⟨10, 0, [(0, 5)]⟩ : Allocation)]).get?
        (CommitInfo.mk 0 (0, 5)).allocIdx = some a2 ∧
      [MemoryType.mk true true false, MemoryType.mk false false true].get? a2.memoryType =
        some mt ∧ mt.hostVisible = true ∧ mt.hostCoherent = true) ∧
    (∃ a2 mt, ([(⟨10, 1, [(0, 5)]⟩ : Allocation)]).get?
        (CommitInfo.mk 0 (0, 5)).allocIdx = some a2 ∧
      [MemoryType.mk true true false, MemoryType.mk false false true].get? a2.memoryType =
        some mt ∧ mt.deviceLocal = true) :=
  ⟨c3_type_selection.1 10 (fun _ => true)
      [MemoryType.mk true true false, MemoryType.mk false false true] [] 5 1 3
      ⟨0, (0, 5)⟩ [⟨10, 0, [(0, 5)]⟩] (by decide),
    c3_type_selection.2 10 (fun _ => true)
      [MemoryType.mk true true false, MemoryType.mk false false true] [] 5 1 3
      ⟨0, (0, 5)⟩ [⟨10, 1, [(0, 5)]⟩] (by decide) (by decide)⟩

/-- C4 counterexample: the Commit request succeeds by carving from an
existing allocation even though driver chunk creation fails for every
candidate memory type, so failure is not equivalent to all-candidate
chunk-creation failure as the claim states. -/
theorem c4_exhaustion_counterexample :
    ((commitReq 64 (fun _ => false) [MemoryType.mk true true true]
        [⟨100, 0, []⟩] 10 1 1 true).1).isSome = true ∧
      (∀ t ∈ candidateTypes [MemoryType.mk true true true] 1 true,
        (fun _ : Nat => false) t = false) := by
  constructor
  · decide
  · decide

/-- C4 (amended): the Commit request fails exactly when no existing
allocation can satisfy it and driver chunk creation fails for every
candidate memory type; on such a failure the allocation list is unchanged
(no dangling interval, no leaked chunk) and the failure is surfaced as
OutOfDeviceMemory, with no retry at a smaller chunk size. -/
theorem c4_exhaustion (minChunk : Nat) (canAlloc : Nat → Bool) (props : List MemoryType)
    (allocs : List Allocation) (size align mask : Nat) (hv : Bool) :
    ((commitReq minChunk canAlloc props allocs size align mask hv).1 = none ↔
      (tryAllocCommit allocs size align (candidateTypes props mask hv) = none ∧
        ∀ t ∈ candidateTypes props mask hv, canAlloc t = false)) ∧
    ((commitReq minChunk canAlloc props allocs size align mask hv).1 = none →
      (commitReq minChunk canAlloc props allocs size align mask hv).2 = allocs) ∧
    (∀ bindOk, (commitReq minChunk canAlloc props allocs size align mask hv).1 = none →
      (commitBound bindOk minChunk canAlloc props allocs size align mask hv).1 =
        Except.error CommitError.outOfDeviceMemory) := by
  rcases h1 : tryAllocCommit allocs size align (candidateTypes props mask hv) with _ | ⟨i, iv, l2⟩
  · rcases h2 : (candidateTypes props mask hv).find? canAlloc with _ | t
    · have hall : ∀ t ∈ candidateTypes props mask hv, canAlloc t = false := by
        intro t ht
        have h3 := List.find?_eq_none.mp h2 t ht
        cases hb : canAlloc t with
        | false => rfl
        | true => exact absurd hb h3
      refine ⟨⟨fun _ => ⟨rfl, hall⟩, fun _ => ?_⟩, fun _ => ?_, fun bindOk _ => ?_⟩
      · simp only [commitReq, h1, h2]
      · simp only [commitReq, h1, h2]
      · simp only [commitBound, commitReq, h1, h2]
    · have hpt : canAlloc t = true := List.find?_some h2
      have hmt : t ∈ candidateTypes props mask hv := List.mem_of_find?_eq_some h2
      have hres : commitReq minChunk canAlloc props allocs size align mask hv =
          (some ⟨allocs.length, (0, size)⟩,
            allocs ++ [⟨max size minChunk, t, [(0, size)]⟩]) := by
        simp only [commitReq, h1, h2, tryCarve_fresh]
      rw [hres]
      refine ⟨⟨fun hc => absurd hc (by simp), fun hc => ?_⟩, fun hc => absurd hc (by simp),
        fun bindOk hc => absurd hc (by simp)⟩
      rw [hc.2 t hmt] at hpt
      cases hpt
  · have hres : commitReq minChunk canAlloc props allocs size align mask hv =
        (some ⟨i, iv⟩, l2) := by
      simp only [commitReq, h1]
    rw [hres]
    refine ⟨⟨fun hc => absurd hc (by simp), fun hc => ?_⟩, fun hc => absurd hc (by simp),
      fun bindOk hc => absurd hc (by simp)⟩
    exact Option.noConfusion hc.1

theorem c4_exhaustion_witness :
    (commitReq 64 (fun _ => false) [MemoryType.mk true true true] [] 10 1 1 true).2 =
      ([] : List Allocation) :=
  (c4_exhaustion 64 (fun _ => false) [MemoryType.mk true true true] [] 10 1 1 true).2.1 rfl

/-- C9: when no existing allocation satisfies the request and the driver
accepts a candidate type, the manager creates exactly one new allocation
whose chunk size is the larger of the request size and the fixed minimum
chunk size (hence at least the minimum), and carves the commit from it. -/
theorem c9_chunk_growth (minChunk : Nat) (canAlloc : Nat → Bool) (props : List MemoryType)
    (allocs : List Allocation) (size align mask : Nat) (hv : Bool) (t : Nat)
    (hta : tryAllocCommit allocs size align (candidateTypes props mask hv) = none)
    (hft : (candidateTypes props mask hv).find? canAlloc = some t) :
    commitReq minChunk canAlloc props allocs size align mask hv =
      (some ⟨allocs.length, (0, size)⟩,
        allocs ++ [⟨max size minChunk, t, [(0, size)]⟩]) ∧
      minChunk ≤ max size minChunk := by
  constructor
  · simp only [commitReq, hta, hft, tryCarve_fresh]
  · exact Nat.le_max_right size minChunk

theorem c9_chunk_growth_witness :
    commitReq 100 (fun _ => true) [MemoryType.mk true true false] [] 5 1 1 true =
      (some ⟨0, (0, 5)⟩, ([] : List Allocation) ++ [⟨max 5 100, 0, [(0, 5)]⟩]) ∧
      100 ≤ max 5 100 :=
  c9_chunk_growth 100 (fun _ => true) [MemoryType.mk true true false] [] 5 1 1 true 0
    (by decide) (by decide)

/-- C6: for the buffer/image convenience form, when the carve succeeds but
the driver bind fails, the bind error is surfaced and the carved interval
is released back to its owning allocation first: the allocation list is
restored, except that a chunk freshly created for this request may remain
with an empty used-range list (no lease is leaked). -/
theorem c6_bind_rollback (minChunk : Nat) (canAlloc : Nat → Bool) (props : List MemoryType)
    (allocs : List Allocation) (size align mask : Nat) (hv : Bool) (ci : CommitInfo)
    (allocs2 : List Allocation)
    (h : commitReq minChunk canAlloc props allocs size align mask hv = (some ci, allocs2)) :
    (commitBound false minChunk canAlloc props allocs size align mask hv).1 =
        Except.error CommitError.bindFailure ∧
      ((commitBound false minChunk canAlloc props allocs size align mask hv).2 = allocs ∨
        ∃ t, (commitBound false minChunk canAlloc props allocs size align mask hv).2 =
          allocs ++ [⟨max size minChunk, t, []⟩]) := by
  rcases h1 : tryAllocCommit allocs size align (candidateTypes props mask hv) with _ | ⟨i, iv, l2⟩
  · rcases h2 : (candidateTypes props mask hv).find? canAlloc with _ | t
    · simp only [commitReq, h1, h2] at h
      simp only [Prod.mk.injEq] at h
      cases h.1
    · simp only [commitReq, h1, h2, tryCarve_fresh] at h
      simp only [Prod.mk.injEq, Option.some.injEq] at h
      obtain ⟨hci, hl⟩ := h
      subst hci
      subst hl
      constructor
      · simp only [commitBound, commitReq, h1, h2, tryCarve_fresh]
      · right
        refine ⟨t, ?_⟩
        simp only [commitBound, commitReq, h1, h2, tryCarve_fresh]
        rw [releaseAt_append]
        simp [releaseRange, removeRange]
  · simp only [commitReq, h1] at h
    simp only [Prod.mk.injEq, Option.some.injEq] at h
    obtain ⟨hci, hl⟩ := h
    subst hci
    subst hl
    constructor
    · simp only [commitBound, commitReq, h1]
    · left
      have h3 := (tryAllocCommit_spec size align allocs _ i iv l2 h1).1
      simp only [commitBound, commitReq, h1]
      exact h3

theorem c6_bind_rollback_witness :
    (commitBound false 10 (fun _ => true) [MemoryType.mk true true false] [] 7 1 1 true).1 =
        Except.error CommitError.bindFailure ∧
      ((commitBound false 10 (fun _ => true) [MemoryType.mk true true false] [] 7 1 1 true).2 =
          ([] : List Allocation) ∨
        ∃ t, (commitBound false 10 (fun _ => true) [MemoryType.mk true true false]
            [] 7 1 1 true).2 = ([] : List Allocation) ++ [⟨max 7 10, t, []⟩]) :=
  c6_bind_rollback 10 (fun _ => true) [MemoryType.mk true true false] [] 7 1 1 true
    ⟨0, (0, 7)⟩ [⟨10, 0, [(0, 7)]⟩] (by decide)

end VkMem

namespace VkMem

/-- C5: releasing a commit returns its interval to the allocation's free
space: (1) after carving and releasing a commit, the identical request
succeeds again with the very same interval and state (exact-fit reuse);
(2) after releasing two commits with adjacent intervals [x, m) and [m, y),
a request of the combined size y - x succeeds on this allocation (freed
adjacent space coalesces, no new chunk is needed). -/
theorem c5_reuse_and_coalesce :
    (∀ (a : Allocation) (size align : Nat) (iv : Nat × Nat) (a2 : Allocation),
      tryCarve a size align = (some iv, a2) →
      tryCarve (releaseRange a2 iv) size align = (some iv, a2)) ∧
    (∀ (a : Allocation) (x m y : Nat),
      chainWF 0 a.size a.usedRanges = true →
      (x, m) ∈ a.usedRanges → (m, y) ∈ a.usedRanges →
      ((tryCarve (releaseRange (releaseRange a (x, m)) (m, y)) (y - x) 1).1).isSome = true) := by
  constructor
  · intro a size align iv a2 h
    rw [tryCarve_release a size align iv a2 h]
    exact h
  · intro a x m y hwf hA hB
    have hmemA := chainWF_mem 0 a.size a.usedRanges (x, m) hwf hA
    have hmemB := chainWF_mem 0 a.size a.usedRanges (m, y) hwf hB
    have hxm : x < m := hmemA.2.1
    have hmy : m < y := hmemB.2.1
    have hyz : y ≤ a.size := hmemB.2.2
    have hnd := chainWF_nodup 0 a.size a.usedRanges hwf
    have hwfA : chainWF 0 a.size (removeRange (x, m) a.usedRanges) = true :=
      chainWF_removeRange 0 a.size (x, m) a.usedRanges hwf
    have hndA := chainWF_nodup 0 a.size (removeRange (x, m) a.usedRanges) hwfA
    have hwf2 : chainWF 0 a.size (removeRange (m, y) (removeRange (x, m) a.usedRanges)) = true :=
      chainWF_removeRange 0 a.size (m, y) _ hwfA
    have hdis : ∀ r ∈ removeRange (m, y) (removeRange (x, m) a.usedRanges),
        x + (y - x) ≤ r.1 ∨ r.2 ≤ x := by
      intro r hr
      have hr1 : r ∈ removeRange (x, m) a.usedRanges := mem_removeRange _ _ _ hr
      have hr0 : r ∈ a.usedRanges := mem_removeRange _ _ _ hr1
      have hrneA : r ≠ (x, m) := by
        intro heq
        rw [heq] at hr1
        exact not_mem_removeRange (x, m) a.usedRanges hnd hr1
      have hrneB : r ≠ (m, y) := by
        intro heq
        rw [heq] at hr
        exact not_mem_removeRange (m, y) _ hndA hr
      have d1 : r.2 ≤ x ∨ m ≤ r.1 :=
        chainWF_disjoint 0 a.size a.usedRanges r (x, m) hwf hr0 hA hrneA
      have d2 : r.2 ≤ m ∨ y ≤ r.1 :=
        chainWF_disjoint 0 a.size a.usedRanges r (m, y) hwf hr0 hB hrneB
      have hrr : r.1 < r.2 := (chainWF_mem 0 a.size a.usedRanges r hwf hr0).2.1
      omega
    obtain ⟨ab, hf, -⟩ := findFit_min (y - x) 1 0 a.size x
      (removeRange (m, y) (removeRange (x, m) a.usedRanges)) hwf2 (Nat.zero_le x)
      Nat.one_pos (Nat.mod_one x) (by omega) hdis
    simp only [releaseRange, tryCarve]
    simp only [hf]
    rfl

theorem c5_reuse_and_coalesce_witness :
    tryCarve (releaseRange ⟨1024, 0, [(0, 100), (100, 300), (300, 350)]⟩ (300, 350)) 50 1 =
        (some (300, 350), ⟨1024, 0, [(0, 100), (100, 300), (300, 350)]⟩) ∧
      ((tryCarve (releaseRange (releaseRange ⟨1024, 0, [(0, 100), (100, 300)]⟩ (0, 100))
          (100, 300)) (300 - 0) 1).1).isSome = true :=
  ⟨c5_reuse_and_coalesce.1 ⟨1024, 0, [(0, 100), (100, 300)]⟩ 50 1 (300, 350)
      ⟨1024, 0, [(0, 100), (100, 300), (300, 350)]⟩ (by decide),
    c5_reuse_and_coalesce.2 ⟨1024, 0, [(0, 100), (100, 300)]⟩ 0 100 300
      (by decide) (by decide) (by decide)⟩

/-- C7: over each allowed lifetime of a MemoryMap (destruction alone, or
explicit Release followed by destruction), commit->Unmap() runs exactly
once: Release nulls the commit reference and the destructor skips Unmap
on a null reference, so a double unmap is impossible by construction. -/
theorem c7_unmap_exactly_once (c sp : Nat) :
    MemoryMap.destroy ⟨some c, sp, 0⟩ = 1 ∧
      (MemoryMap.release ⟨some c, sp, 0⟩).map MemoryMap.destroy = some 1 :=
  ⟨rfl, rfl⟩

/-- C8 counterexample: with a first MemoryMap over the commit still live,
a second Map call on the same commit also yields a live MemoryMap; nothing
is rejected or flagged. -/
theorem c8_second_map_counterexample :
    ((VKMemoryCommitImpl.mk 0 (0, 256)).mapRegion 4096 0).commit.isSome = true ∧
      ((VKMemoryCommitImpl.mk 0 (0, 256)).mapRegion 4096 64).commit.isSome = true := by
  constructor
  · rfl
  · rfl

/-- C8 (amended): the implementation never rejects or flags a second live
MemoryMap over a Commit: Map is a const member of a class with no
mapping-state field, so every Map call on any commit unconditionally
returns a live MemoryMap referencing it; at-most-one-live-map is a caller
obligation, not checked by the implementation. -/
theorem c8_map_is_unchecked (c : VKMemoryCommitImpl) (b1 o1 b2 o2 : Nat) :
    (c.mapRegion b1 o1).commit = some c.id ∧ (c.mapRegion b2 o2).commit = some c.id :=
  ⟨rfl, rfl⟩

/-- C10: MemoryMap::Release dereferences the stored commit pointer with no
null guard, so it is defined exactly when the commit reference is non-null;
a second Release on the same map dereferences nullptr, while the destructor
does guard on null and performs no further Unmap after a Release. -/
theorem c10_release_requires_live :
    (∀ m : MemoryMap, MemoryMap.release m = none ↔ m.commit = none) ∧
    (∀ c sp : Nat, (MemoryMap.release ⟨some c, sp, 0⟩).bind MemoryMap.release = none) ∧
    (∀ sp u : Nat, MemoryMap.destroy ⟨none, sp, u⟩ = u) := by
  refine ⟨?_, fun c sp => rfl, fun sp u => rfl⟩
  intro m
  obtain ⟨cm, sp, u⟩ := m
  cases cm with
  | none => simp [MemoryMap.release]
  | some c => simp [MemoryMap.release]

end VkMem
